import Mathlib

/-!
Verification of the `ContributorsCount` process metric
(`pydriller/metrics/process/contributors_count.py`).

The embedding mirrors the Python source: dictionaries become association
lists that preserve insertion order (as Python dicts do), the accumulation
pass over `traverse_commits()` becomes a left fold over the delivered
commit list, and the finalization pass becomes a filter (dropping
zero-total files) followed by per-file metric computation.  Line counts
are integers; the `v / total < .05` and `v < total / 2` comparisons are
carried out in `ℚ`, matching real-number division semantics.
-/

namespace ContributorsCount

attribute [local semireducible] Rat.mul Rat.inv

/-- The change types attached to a modified-file record by the miner. -/
inductive ModificationType where
  | ADD
  | COPY
  | RENAME
  | DELETE
  | MODIFY
  | UNKNOWN
deriving DecidableEq, Repr

/-- One modified-file record inside a commit, as consumed by the metric. -/
structure ModifiedFile where
  old_path : Option String
  new_path : Option String
  change_type : ModificationType
  added_lines : Int
  deleted_lines : Int
deriving DecidableEq, Repr

/-- The commit author; the metric reads `commit.author.email`. -/
structure Author where
  email : String
deriving DecidableEq, Repr

/-- One commit record delivered by the repository miner. -/
structure Commit where
  author : Author
  modified_files : List ModifiedFile
deriving DecidableEq, Repr

/-- Python `str.strip()`: drop leading and trailing whitespace. -/
def strip (s : String) : String :=
  ⟨((s.data.dropWhile Char.isWhitespace).reverse.dropWhile Char.isWhitespace).reverse⟩

/-- Insertion-ordered dictionary, the shape of a Python `dict`. -/
abbrev Dict (α β : Type) := List (α × β)

/-- Python `d.get(k)` / `d[k]`: the value at the first matching key. -/
def alookup {α β : Type} [DecidableEq α] (d : Dict α β) (k : α) : Option β :=
  match d with
  | [] => none
  | (k', v) :: rest => if k' = k then some v else alookup rest k

/-- Python `d[k] = v`: update the existing entry in place, else append. -/
def aset {α β : Type} [DecidableEq α] (d : Dict α β) (k : α) (v : β) : Dict α β :=
  match d with
  | [] => [(k, v)]
  | (k', v') :: rest => if k' = k then (k', v) :: rest else (k', v') :: aset rest k v

/-- Python `sum(contributions.values())`. -/
def totalOf (contribs : Dict String Int) : Int :=
  (contribs.map Prod.snd).sum

/-- Python `itertools.accumulate` on integers, with an explicit running sum. -/
def accumSums (acc : Int) : List Int → List Int
  | [] => []
  | v :: vs => (acc + v) :: accumSums (acc + v) vs

/-- `prefixSums [v1, v2, ...] = [v1, v1+v2, ...]`, i.e. `accumulate`. -/
def prefixSums (l : List Int) : List Int :=
  accumSums 0 l

/-- Python `sum(1 for v in contributions.values() if v/total < .05)`. -/
def minorCountOf (contribs : Dict String Int) : Nat :=
  let total := totalOf contribs
  (contribs.filter (fun (av : String × Int) =>
    decide ((av.2 : ℚ) / (total : ℚ) < (5 : ℚ) / 100))).length

/-- Python: sort values descending, accumulate, count prefix sums `< total/2`,
then add 1. -/
def busFactorOf (contribs : Dict String Int) : Nat :=
  let total := totalOf contribs
  let cumulative := prefixSums (List.insertionSort (fun a b => a ≥ b) (contribs.map Prod.snd))
  (cumulative.filter (fun (v : Int) => decide ((v : ℚ) < (total : ℚ) / 2))).length + 1

/-- The state mutated by the accumulation loop of `_initialize`. -/
structure AccState where
  renamed_files : Dict (Option String) (Option String)
  contributors : Dict (Option String) (Dict String Int)
deriving Repr

/-- The body of the inner loop of `_initialize`, for one modified file:
resolve the canonical path through `renamed_files`, record a rename alias,
and add `added_lines + deleted_lines` to the author's tally. -/
def processFile (author : String) (st : AccState) (mf : ModifiedFile) : AccState :=
  let filepath := (alookup st.renamed_files mf.new_path).getD mf.new_path
  let renamed := if mf.change_type = ModificationType.RENAME
                 then aset st.renamed_files mf.old_path filepath
                 else st.renamed_files
  let lines_authored := mf.added_lines + mf.deleted_lines
  let fileTab := (alookup st.contributors filepath).getD []
  let fileTab' := aset fileTab author ((alookup fileTab author).getD 0 + lines_authored)
  { renamed_files := renamed, contributors := aset st.contributors filepath fileTab' }

/-- One commit of the accumulation loop: the author email is stripped once
and every modified file is processed in order. -/
def processCommit (st : AccState) (c : Commit) : AccState :=
  c.modified_files.foldl (processFile (strip c.author.email)) st

/-- The accumulation pass of `_initialize` over the delivered commit
stream: the per-file per-author contribution table. -/
def build (cs : List Commit) : Dict (Option String) (Dict String Int) :=
  (cs.foldl processCommit ⟨[], []⟩).contributors

/-- The three result dictionaries filled by the finalization loop. -/
structure Output where
  contributors : Dict (Option String) Nat
  minor_contributors : Dict (Option String) Nat
  bus_factor : Dict (Option String) Nat
deriving DecidableEq, Repr

/-- The finalization loop of `_initialize`: files whose total is zero are
deleted; every other file gets its contributor count, minor-contributor
count and bus factor. -/
def finalizeTable (table : Dict (Option String) (Dict String Int)) : Output :=
  let kept := table.filter (fun pc => decide (totalOf pc.2 ≠ 0))
  { contributors := kept.map (fun pc => (pc.1, pc.2.length)),
    minor_contributors := kept.map (fun pc => (pc.1, minorCountOf pc.2)),
    bus_factor := kept.map (fun pc => (pc.1, busFactorOf pc.2)) }

/-- `_initialize` end to end: accumulate the stream, then finalize. -/
def metrics (cs : List Commit) : Output :=
  finalizeTable (build cs)

/-- Accessor `count()`. -/
def count (o : Output) : Dict (Option String) Nat :=
  o.contributors

/-- Accessor `count_minor()`. -/
def count_minor (o : Output) : Dict (Option String) Nat :=
  o.minor_contributors

/-- Accessor `measure_bus_factor()`. -/
def measure_bus_factor (o : Output) : Dict (Option String) Nat :=
  o.bus_factor

/-! ### Dictionary lemmas -/

theorem alookup_mem {α β : Type} [DecidableEq α] {d : Dict α β} {k : α} {v : β}
    (h : alookup d k = some v) : (k, v) ∈ d := by
  induction d with
  | nil => simp [alookup] at h
  | cons hd tl ih =>
    obtain ⟨k₀, v₀⟩ := hd
    by_cases hk : k₀ = k
    · subst hk
      simp [alookup] at h
      simp [h]
    · simp [alookup, hk] at h
      exact List.mem_cons_of_mem _ (ih h)

theorem mem_aset {α β : Type} [DecidableEq α] {d : Dict α β} {k : α} {v : β} {x : α × β}
    (h : x ∈ aset d k v) : x ∈ d ∨ x = (k, v) := by
  induction d with
  | nil =>
    simp [aset] at h
    right; exact h
  | cons hd tl ih =>
    obtain ⟨k₀, v₀⟩ := hd
    by_cases hk : k₀ = k
    · subst hk
      simp [aset] at h
      rcases h with h | h
      · right; simp [h]
      · left; exact List.mem_cons_of_mem _ h
    · simp [aset, hk] at h
      rcases h with h | h
      · left; simp [h]
      · rcases ih h with h | h
        · left; exact List.mem_cons_of_mem _ h
        · right; exact h

theorem alookup_aset_self {α β : Type} [DecidableEq α] (d : Dict α β) (k : α) (v : β) :
    alookup (aset d k v) k = some v := by
  induction d with
  | nil => simp [aset, alookup]
  | cons hd tl ih =>
    obtain ⟨k₀, v₀⟩ := hd
    by_cases hk : k₀ = k
    · subst hk
      simp [aset, alookup]
    · simp [aset, alookup, hk, ih]

theorem alookup_aset_ne {α β : Type} [DecidableEq α] (d : Dict α β) {k k' : α} (v : β)
    (h : k' ≠ k) : alookup (aset d k v) k' = alookup d k' := by
  induction d with
  | nil => simp [aset, alookup, Ne.symm h]
  | cons hd tl ih =>
    obtain ⟨k₀, v₀⟩ := hd
    by_cases hk : k₀ = k
    · subst hk
      simp [aset, alookup, Ne.symm h]
    · simp [aset, alookup, hk, ih]

theorem aset_cons_eq {α β : Type} [DecidableEq α] {k₀ k : α} (v₀ v : β) (tl : Dict α β)
    (h : k₀ = k) : aset ((k₀, v₀) :: tl) k v = (k₀, v) :: tl := by
  simp [aset, h]

theorem aset_cons_ne {α β : Type} [DecidableEq α] {k₀ k : α} (v₀ v : β) (tl : Dict α β)
    (h : ¬ k₀ = k) : aset ((k₀, v₀) :: tl) k v = (k₀, v₀) :: aset tl k v := by
  simp [aset, h]

theorem alookup_eq_none_of_not_mem_keys {α β : Type} [DecidableEq α] {d : Dict α β} {k : α}
    (h : k ∉ d.map Prod.fst) : alookup d k = none := by
  induction d with
  | nil => rfl
  | cons hd tl ih =>
    obtain ⟨k₀, v₀⟩ := hd
    rw [List.map_cons] at h
    simp only [List.mem_cons, not_or] at h
    have h1 : ¬ (k₀ = k) := fun he => h.1 he.symm
    simp [alookup, h1, ih h.2]

theorem mem_keys_of_alookup_eq_some {α β : Type} [DecidableEq α] {d : Dict α β} {k : α} {v : β}
    (h : alookup d k = some v) : k ∈ d.map Prod.fst := by
  have := alookup_mem h
  exact List.mem_map.2 ⟨(k, v), this, rfl⟩

theorem mem_keys_aset {α β : Type} [DecidableEq α] {d : Dict α β} {k k' : α} {v : β}
    (h : k' ∈ (aset d k v).map Prod.fst) : k' ∈ d.map Prod.fst ∨ k' = k := by
  rcases List.mem_map.1 h with ⟨x, hx, hfst⟩
  rcases mem_aset hx with hx | hx
  · left; exact List.mem_map.2 ⟨x, hx, hfst⟩
  · right; rw [← hfst, hx]

theorem nodup_keys_aset {α β : Type} [DecidableEq α] {d : Dict α β} (k : α) (v : β)
    (h : (d.map Prod.fst).Nodup) : ((aset d k v).map Prod.fst).Nodup := by
  induction d with
  | nil => simp [aset]
  | cons hd tl ih =>
    obtain ⟨k₀, v₀⟩ := hd
    rw [List.map_cons, List.nodup_cons] at h
    by_cases hk : k₀ = k
    · rw [aset_cons_eq v₀ v tl hk, List.map_cons, List.nodup_cons]
      exact h
    · rw [aset_cons_ne v₀ v tl hk, List.map_cons, List.nodup_cons]
      refine ⟨?_, ih h.2⟩
      intro hmem
      rcases mem_keys_aset hmem with hmem' | hmem'
      · exact h.1 hmem'
      · exact hk hmem'

theorem alookup_eq_of_mem_nodup {α β : Type} [DecidableEq α] {d : Dict α β} {k : α} {v : β}
    (hnd : (d.map Prod.fst).Nodup) (h : (k, v) ∈ d) : alookup d k = some v := by
  induction d with
  | nil => simp at h
  | cons hd tl ih =>
    obtain ⟨k₀, v₀⟩ := hd
    rw [List.map_cons, List.nodup_cons] at hnd
    rcases List.mem_cons.1 h with h | h
    · rw [Prod.mk.injEq] at h
      simp [alookup, h.1.symm, h.2]
    · by_cases hk : k₀ = k
      · subst hk
        exact absurd (List.mem_map.2 ⟨(k₀, v), h, rfl⟩) hnd.1
      · simp [alookup, hk, ih hnd.2 h]

/-! ### Finalization lookup lemmas -/

theorem alookup_filter_map_kept {β : Type} (table : Dict (Option String) (Dict String Int))
    (f : Dict String Int → β) {p : Option String} {t : Dict String Int}
    (ht : alookup table p = some t) (hnz : totalOf t ≠ 0) :
    alookup ((table.filter (fun pc => decide (totalOf pc.2 ≠ 0))).map
      (fun pc => (pc.1, f pc.2))) p = some (f t) := by
  induction table with
  | nil => simp [alookup] at ht
  | cons hd tl ih =>
    obtain ⟨p₀, t₀⟩ := hd
    rw [List.filter_cons]
    by_cases hp : p₀ = p
    · subst hp
      simp [alookup] at ht
      subst ht
      rw [if_pos (by simpa using hnz), List.map_cons]
      simp [alookup]
    · simp [alookup, hp] at ht
      by_cases hz : totalOf t₀ = 0
      · rw [if_neg (by simpa using hz)]
        exact ih ht
      · rw [if_pos (by simpa using hz), List.map_cons]
        simp only [alookup]
        rw [if_neg hp]
        exact ih ht

theorem keys_filter_map_subset {β : Type} (table : Dict (Option String) (Dict String Int))
    (f : Dict String Int → β) {p : Option String}
    (h : p ∈ (((table.filter (fun pc => decide (totalOf pc.2 ≠ 0))).map
      (fun pc => (pc.1, f pc.2))).map Prod.fst)) : p ∈ table.map Prod.fst := by
  simp only [List.map_map] at h
  rcases List.mem_map.1 h with ⟨x, hx, hfst⟩
  exact List.mem_map.2 ⟨x, List.mem_of_mem_filter hx, hfst⟩

theorem alookup_filter_map_dropped {β : Type} (table : Dict (Option String) (Dict String Int))
    (f : Dict String Int → β) {p : Option String} {t : Dict String Int}
    (hnd : (table.map Prod.fst).Nodup)
    (ht : alookup table p = some t) (hz : totalOf t = 0) :
    alookup ((table.filter (fun pc => decide (totalOf pc.2 ≠ 0))).map
      (fun pc => (pc.1, f pc.2))) p = none := by
  induction table with
  | nil => simp [alookup] at ht
  | cons hd tl ih =>
    obtain ⟨p₀, t₀⟩ := hd
    rw [List.map_cons, List.nodup_cons] at hnd
    rw [List.filter_cons]
    by_cases hp : p₀ = p
    · subst hp
      simp [alookup] at ht
      subst ht
      rw [if_neg (by simpa using hz)]
      apply alookup_eq_none_of_not_mem_keys
      intro hmem
      exact hnd.1 (keys_filter_map_subset tl f hmem)
    · simp [alookup, hp] at ht
      by_cases hz₀ : totalOf t₀ = 0
      · rw [if_neg (by simpa using hz₀)]
        exact ih hnd.2 ht
      · rw [if_pos (by simpa using hz₀), List.map_cons]
        simp only [alookup]
        rw [if_neg hp]
        exact ih hnd.2 ht

/-! ### Accumulator invariants -/

theorem foldl_preserves {σ χ : Type} (f : σ → χ → σ) (P : σ → Prop) (l : List χ) (st : σ)
    (h : P st) (step : ∀ s a, a ∈ l → P s → P (f s a)) : P (l.foldl f st) := by
  induction l generalizing st with
  | nil => exact h
  | cons hd tl ih =>
    exact ih (f st hd) (step st hd (List.mem_cons_self _ _) h)
      (fun s a ha hp => step s a (List.mem_cons_of_mem _ ha) hp)

/-- Every record of the stream carries non-negative line counts, as the
data model promises for well-formed miner output. -/
abbrev NonnegStream (cs : List Commit) : Prop :=
  ∀ c ∈ cs, ∀ mf ∈ c.modified_files, 0 ≤ mf.added_lines ∧ 0 ≤ mf.deleted_lines

/-- All accumulated per-author values in the table are non-negative. -/
def ValuesNonneg (d : Dict (Option String) (Dict String Int)) : Prop :=
  ∀ p t, alookup d p = some t → ∀ av ∈ t, 0 ≤ av.2

theorem valuesNonneg_processFile {author : String} {st : AccState} {mf : ModifiedFile}
    (hst : ValuesNonneg st.contributors)
    (hmf : 0 ≤ mf.added_lines ∧ 0 ≤ mf.deleted_lines) :
    ValuesNonneg (processFile author st mf).contributors := by
  intro p t ht av hav
  rw [processFile] at ht
  simp only at ht
  set filepath := (alookup st.renamed_files mf.new_path).getD mf.new_path with hfp
  set fileTab := (alookup st.contributors filepath).getD [] with hft
  by_cases hp : p = filepath
  · subst hp
    rw [alookup_aset_self] at ht
    have ht' := ht.symm
    cases ht'
    rcases mem_aset hav with hmem | hmem
    · -- an old entry of the per-file table
      rcases h₀ : alookup st.contributors filepath with _ | t₀
      · rw [hft, h₀] at hmem
        simp at hmem
      · rw [hft, h₀] at hmem
        exact hst filepath t₀ h₀ av hmem
    · -- the freshly updated author entry
      subst hmem
      have hold : 0 ≤ (alookup fileTab author).getD 0 := by
        rcases h₁ : alookup fileTab author with _ | v₀
        · simp
        · simp only [Option.getD_some]
          rcases h₀ : alookup st.contributors filepath with _ | t₀
          · rw [hft, h₀] at h₁
            simp [alookup] at h₁
          · rw [hft, h₀] at h₁
            exact hst filepath t₀ h₀ (author, v₀) (alookup_mem h₁)
      have : 0 ≤ mf.added_lines + mf.deleted_lines := add_nonneg hmf.1 hmf.2
      simpa using add_nonneg hold this
  · rw [alookup_aset_ne _ _ hp] at ht
    exact hst p t ht av hav

theorem valuesNonneg_build (cs : List Commit) (hcs : NonnegStream cs) :
    ValuesNonneg (build cs) := by
  rw [build]
  have : ∀ st : AccState, ValuesNonneg st.contributors →
      ∀ c ∈ cs, ValuesNonneg (processCommit st c).contributors := by
    intro st hst c hc
    rw [processCommit]
    exact foldl_preserves _ (fun s => ValuesNonneg s.contributors) _ st hst
      (fun s mf hmf hs => valuesNonneg_processFile hs (hcs c hc mf hmf))
  refine foldl_preserves _ (fun s => ValuesNonneg s.contributors) _ _ ?_
    (fun s c hc hs => this s hs c hc)
  intro p t ht
  simp [alookup] at ht

theorem nodupKeys_build (cs : List Commit) : ((build cs).map Prod.fst).Nodup := by
  rw [build]
  refine foldl_preserves _ (fun s : AccState => (s.contributors.map Prod.fst).Nodup) _ _ (by simp) ?_
  intro st c _ hst
  rw [processCommit]
  refine foldl_preserves _ (fun s : AccState => (s.contributors.map Prod.fst).Nodup) _ _ hst ?_
  intro s mf _ hs
  rw [processFile]
  exact nodup_keys_aset _ _ hs

/-! ### Prefix sums and the bus-factor characterization -/

theorem accumSums_eq_map (a : Int) (l : List Int) :
    accumSums a l = (List.range l.length).map (fun i => a + (l.take (i + 1)).sum) := by
  induction l generalizing a with
  | nil => rfl
  | cons x xs ih =>
    rw [accumSums, List.length_cons, List.range_succ_eq_map, List.map_cons, List.map_map]
    congr 1
    · simp
    · rw [ih (a + x)]
      apply List.map_congr_left
      intro i _
      simp [Function.comp, List.take_succ_cons, add_assoc]

theorem countP_range_lt (n m : Nat) :
    (List.range n).countP (fun j => decide (j < m)) = min m n := by
  induction n with
  | zero => simp
  | succ n ih =>
    rw [List.range_succ, List.countP_append, ih]
    by_cases h : n < m
    · simp [List.countP_cons, h]
      omega
    · simp [List.countP_cons, h]
      omega

theorem busFactor_core (s : List Int) (c : Nat)
    (hc : c = ((prefixSums s).filter (fun (v : Int) =>
      decide ((v : ℚ) < (s.sum : ℚ) / 2))).length)
    (hnn : ∀ v ∈ s, 0 ≤ v) (hpos : 0 < s.sum) :
    c + 1 ≤ s.length ∧
    (s.sum : ℚ) / 2 ≤ ((s.take (c + 1)).sum : ℚ) ∧
    ∀ m < c + 1, ((s.take m).sum : ℚ) < (s.sum : ℚ) / 2 := by
  set T := s.sum with hT
  set n := s.length with hn
  have hiff : ∀ v : Int, ((v : ℚ) < (T : ℚ) / 2) ↔ (2 * v < T) := by
    intro v
    rw [lt_div_iff₀ (by norm_num : (0:ℚ) < 2), mul_comm]
    norm_cast
  have hfilter : c = (List.range n).countP (fun i => decide (2 * (s.take (i + 1)).sum < T)) := by
    rw [hc, prefixSums, accumSums_eq_map, ← List.countP_eq_length_filter, List.countP_map]
    apply List.countP_congr
    intro i _
    simp only [Function.comp]
    rw [decide_eq_true_eq, decide_eq_true_eq, zero_add]
    exact hiff _
  have hstep : ∀ m : Nat, (s.take m).sum ≤ (s.take (m + 1)).sum := by
    intro m
    rw [List.take_succ, List.sum_append]
    have : 0 ≤ (s[m]?.toList).sum := by
      rcases h : s[m]? with _ | v
      · simp
      · simpa using hnn v (List.getElem?_mem h)
    linarith
  have hmono : ∀ i j : Nat, i ≤ j → (s.take i).sum ≤ (s.take j).sum := by
    intro i j hij
    induction j with
    | zero =>
      have : i = 0 := by omega
      subst this
      exact le_refl _
    | succ j ihj =>
      rcases Nat.lt_or_ge i (j + 1) with h | h
      · exact le_trans (ihj (by omega)) (hstep j)
      · have : i = j + 1 := by omega
        subst this
        exact le_refl _
  have hne : s ≠ [] := by
    intro h
    rw [hT, h] at hpos
    simp at hpos
  have hn1 : 1 ≤ n := by
    rw [hn]
    exact List.length_pos.mpr hne
  have hQn : T ≤ 2 * (s.take ((n - 1) + 1)).sum := by
    have he : s.take ((n - 1) + 1) = s := by
      rw [(by omega : n - 1 + 1 = n), hn, List.take_length]
    rw [he, ← hT]
    omega
  have hQex : ∃ i, T ≤ 2 * (s.take (i + 1)).sum := ⟨n - 1, hQn⟩
  have hspec : T ≤ 2 * (s.take (Nat.find hQex + 1)).sum := Nat.find_spec hQex
  have hmin : ∀ j < Nat.find hQex, 2 * (s.take (j + 1)).sum < T := by
    intro j hj
    have := Nat.find_min hQex hj
    omega
  have hle : Nat.find hQex ≤ n - 1 := Nat.find_min' hQex hQn
  have hceq : c = Nat.find hQex := by
    rw [hfilter]
    have hpt : ∀ i ∈ List.range n,
        (decide (2 * (s.take (i + 1)).sum < T) = true) ↔ (decide (i < Nat.find hQex) = true) := by
      intro i _
      rw [decide_eq_true_eq, decide_eq_true_eq]
      constructor
      · intro h
        by_contra hge
        push_neg at hge
        have := hmono _ _ (by omega : Nat.find hQex + 1 ≤ i + 1)
        omega
      · intro h
        exact hmin i h
    rw [List.countP_congr hpt, countP_range_lt]
    omega
  refine ⟨by omega, ?_, ?_⟩
  · rw [hceq, div_le_iff₀ (by norm_num : (0:ℚ) < 2)]
    exact_mod_cast (by omega : T ≤ (s.take (Nat.find hQex + 1)).sum * 2)
  · intro m hm
    rcases Nat.eq_zero_or_pos m with hm0 | hmpos
    · subst hm0
      rw [List.take_zero]
      simp only [List.sum_nil, Int.cast_zero]
      exact div_pos (by exact_mod_cast hpos) (by norm_num)
    · obtain ⟨j, rfl⟩ : ∃ j, m = j + 1 := ⟨m - 1, by omega⟩
      have hj : j < Nat.find hQex := by omega
      have := hmin j hj
      rw [lt_div_iff₀ (by norm_num : (0:ℚ) < 2)]
      exact_mod_cast (by omega : (s.take (j + 1)).sum * 2 < T)

theorem busFactorOf_spec (contribs : Dict String Int) (s : List Int)
    (hs : s = List.insertionSort (fun a b => a ≥ b) (contribs.map Prod.snd))
    (hnn : ∀ av ∈ contribs, 0 ≤ av.2) (hpos : 0 < totalOf contribs) :
    busFactorOf contribs ≤ contribs.length ∧
    (totalOf contribs : ℚ) / 2 ≤ ((s.take (busFactorOf contribs)).sum : ℚ) ∧
    ∀ m < busFactorOf contribs, ((s.take m).sum : ℚ) < (totalOf contribs : ℚ) / 2 := by
  have hperm : s.Perm (contribs.map Prod.snd) := hs ▸ List.perm_insertionSort _ _
  have hsum : s.sum = totalOf contribs := by
    rw [totalOf]
    exact hperm.sum_eq
  have hlen : s.length = contribs.length := by
    rw [hperm.length_eq, List.length_map]
  have hnn' : ∀ v ∈ s, 0 ≤ v := by
    intro v hv
    rcases List.mem_map.1 (hperm.mem_iff.1 hv) with ⟨av, hav, rfl⟩
    exact hnn av hav
  have hbf : busFactorOf contribs =
      ((prefixSums s).filter (fun (v : Int) =>
        decide ((v : ℚ) < (s.sum : ℚ) / 2))).length + 1 := by
    simp only [busFactorOf]
    rw [← hs, ← hsum]
  have hcore := busFactor_core s
    (((prefixSums s).filter (fun (v : Int) => decide ((v : ℚ) < (s.sum : ℚ) / 2))).length)
    rfl hnn' (by rw [hsum]; exact hpos)
  refine ⟨?_, ?_, ?_⟩
  · simp only [hbf, ← hlen]
    exact hcore.1
  · simp only [hbf, ← hsum]
    exact hcore.2.1
  · simp only [hbf, ← hsum]
    exact hcore.2.2

theorem minorCountOf_le_length (contribs : Dict String Int) :
    minorCountOf contribs ≤ contribs.length := by
  simp only [minorCountOf]
  exact List.length_filter_le _ _

theorem length_pos_of_totalOf_ne_zero {contribs : Dict String Int}
    (h : totalOf contribs ≠ 0) : 0 < contribs.length := by
  rcases contribs with _ | ⟨hd, tl⟩
  · simp [totalOf] at h
  · simp

theorem totalOf_pos_of_nonneg {contribs : Dict String Int}
    (hnn : ∀ av ∈ contribs, 0 ≤ av.2) (h : totalOf contribs ≠ 0) : 0 < totalOf contribs := by
  have h0 : 0 ≤ totalOf contribs := by
    rw [totalOf]
    apply List.sum_nonneg
    intro v hv
    rcases List.mem_map.1 hv with ⟨av, hav, rfl⟩
    exact hnn av hav
  omega

/-! ### Checked-division model of the finalization pass

Python raises `ZeroDivisionError` on division by zero; every division the
finalization loop performs is modelled here as a failable operation, so
that totality of the pass is a theorem rather than a typing accident. -/

/-- Division with an explicit zero-divisor failure. -/
def qdivE (a b : ℚ) : Option ℚ :=
  if b = 0 then none else some (a / b)

/-- Effectful elementwise map; fails if any element fails. -/
def mapO {α β : Type} (f : α → Option β) : List α → Option (List β)
  | [] => some []
  | a :: l =>
    match f a, mapO f l with
    | some b, some bs => some (b :: bs)
    | _, _ => none

/-- `minorCountOf` with each `v / total` division checked. -/
def minorCountOfE (contribs : Dict String Int) : Option Nat := do
  let total := totalOf contribs
  let fracs ← mapO (fun (av : String × Int) => qdivE (av.2 : ℚ) (total : ℚ)) contribs
  pure (fracs.filter (fun q => decide (q < (5 : ℚ) / 100))).length

/-- `busFactorOf` with the `total / 2` division checked. -/
def busFactorOfE (contribs : Dict String Int) : Option Nat := do
  let total := totalOf contribs
  let cumulative := prefixSums (List.insertionSort (fun a b => a ≥ b) (contribs.map Prod.snd))
  let half ← qdivE (total : ℚ) 2
  pure ((cumulative.filter (fun (v : Int) => decide ((v : ℚ) < half))).length + 1)

/-- The finalization loop with all divisions checked. -/
def finalizeTableE (table : Dict (Option String) (Dict String Int)) : Option Output := do
  let kept := table.filter (fun pc => decide (totalOf pc.2 ≠ 0))
  let minor ← mapO (fun pc => do
    let m ← minorCountOfE pc.2
    pure (pc.1, m)) kept
  let bus ← mapO (fun pc => do
    let b ← busFactorOfE pc.2
    pure (pc.1, b)) kept
  pure { contributors := kept.map (fun pc => (pc.1, pc.2.length)),
         minor_contributors := minor, bus_factor := bus }

/-- `_initialize` end to end with checked divisions. -/
def metricsE (cs : List Commit) : Option Output :=
  finalizeTableE (build cs)

theorem mapO_eq_some {α β : Type} (f : α → Option β) (g : α → β) (l : List α)
    (h : ∀ a ∈ l, f a = some (g a)) : mapO f l = some (l.map g) := by
  induction l with
  | nil => rfl
  | cons a l ih =>
    rw [mapO, h a (List.mem_cons_self a l), ih (fun x hx => h x (List.mem_cons_of_mem _ hx))]
    rfl

theorem minorCountOfE_eq {contribs : Dict String Int} (h : totalOf contribs ≠ 0) :
    minorCountOfE contribs = some (minorCountOf contribs) := by
  have hq : ((totalOf contribs : ℚ)) ≠ 0 := Int.cast_ne_zero.mpr h
  simp only [minorCountOfE]
  rw [mapO_eq_some (fun (av : String × Int) => qdivE (av.2 : ℚ) ((totalOf contribs : Int) : ℚ))
       (fun av => (av.2 : ℚ) / ((totalOf contribs : Int) : ℚ)) contribs
       (fun av _ => by simp [qdivE, hq])]
  simp only [Option.bind_eq_bind, Option.some_bind]
  simp only [minorCountOf]
  congr 1
  rw [← List.countP_eq_length_filter, ← List.countP_eq_length_filter, List.countP_map]
  rfl

theorem busFactorOfE_eq (contribs : Dict String Int) :
    busFactorOfE contribs = some (busFactorOf contribs) := by
  simp only [busFactorOfE]
  rw [qdivE, if_neg (by norm_num : ¬ ((2:ℚ) = 0))]
  simp only [Option.bind_eq_bind, Option.some_bind]
  simp only [busFactorOf]
  rfl

theorem finalizeTableE_eq (table : Dict (Option String) (Dict String Int)) :
    finalizeTableE table = some (finalizeTable table) := by
  simp only [finalizeTableE]
  rw [mapO_eq_some _ (fun pc => (pc.1, minorCountOf pc.2)) _ (fun pc hpc => by
    have hnz : totalOf pc.2 ≠ 0 := by simpa using List.of_mem_filter hpc
    simp only [minorCountOfE_eq hnz]
    rfl)]
  simp only [Option.bind_eq_bind, Option.some_bind]
  rw [mapO_eq_some _ (fun pc => (pc.1, busFactorOf pc.2)) _ (fun pc hpc => by
    simp only [busFactorOfE_eq]
    rfl)]
  simp only [Option.some_bind]
  rw [finalizeTable]
  rfl

theorem metricsE_eq (cs : List Commit) : metricsE cs = some (metrics cs) := by
  rw [metricsE, finalizeTableE_eq, metrics]

/-! ### Concrete commit streams used by the claims -/

/-- The rename-idempotence stream from the spec: add `a.py` by X (10 lines),
rename `a.py` to `b.py` (by R), modify `b.py` by Y (5 lines). -/
def streamC1 : List Commit :=
  [ ⟨⟨"X"⟩, [⟨none, some "a.py", ModificationType.ADD, 10, 0⟩]⟩,
    ⟨⟨"R"⟩, [⟨some "a.py", some "b.py", ModificationType.RENAME, 0, 0⟩]⟩,
    ⟨⟨"Y"⟩, [⟨none, some "b.py", ModificationType.MODIFY, 5, 0⟩]⟩ ]

/-- A chained-rename stream: add `a` by X, rename `a` to `b`, modify `b`
by Y, rename `b` to `c`, modify `c` by Z, then a record that still refers
to the long-gone name `a` (by W). -/
def streamC2 : List Commit :=
  [ ⟨⟨"X"⟩, [⟨none, some "a", ModificationType.ADD, 10, 0⟩]⟩,
    ⟨⟨"R1"⟩, [⟨some "a", some "b", ModificationType.RENAME, 0, 0⟩]⟩,
    ⟨⟨"Y"⟩, [⟨none, some "b", ModificationType.MODIFY, 5, 0⟩]⟩,
    ⟨⟨"R2"⟩, [⟨some "b", some "c", ModificationType.RENAME, 0, 0⟩]⟩,
    ⟨⟨"Z"⟩, [⟨none, some "c", ModificationType.MODIFY, 3, 0⟩]⟩,
    ⟨⟨"W"⟩, [⟨none, some "a", ModificationType.MODIFY, 7, 0⟩]⟩ ]

/-- Two authors on one file: X adds 10 lines, Y adds 5. -/
def streamC3w : List Commit :=
  [ ⟨⟨"X"⟩, [⟨none, some "f", ModificationType.ADD, 10, 0⟩]⟩,
    ⟨⟨"Y"⟩, [⟨none, some "f", ModificationType.MODIFY, 5, 0⟩]⟩ ]

/-- Twenty authors, each contributing exactly one line to `f`. -/
def stream20 : List Commit :=
  (List.range 20).map (fun i =>
    ⟨⟨"a" ++ toString i⟩, [⟨none, some "f", ModificationType.MODIFY, 1, 0⟩]⟩)

/-- The per-author table `stream20` accumulates for `f`. -/
def table20 : Dict String Int :=
  (List.range 20).map (fun i => ("a" ++ toString i, (1 : Int)))

/-- A single author adding 10 lines to `f`. -/
def streamC5w : List Commit :=
  [ ⟨⟨"X"⟩, [⟨none, some "f", ModificationType.ADD, 10, 0⟩]⟩ ]

/-- A single zero-line touch of `f`. -/
def streamC6w : List Commit :=
  [ ⟨⟨"A"⟩, [⟨none, some "f", ModificationType.MODIFY, 0, 0⟩]⟩ ]

/-- A pure deletion record: `new_path` is absent, five lines deleted. -/
def streamC7 : List Commit :=
  [ ⟨⟨"X"⟩, [⟨some "f", none, ModificationType.DELETE, 0, 5⟩]⟩ ]

/-- A malformed record with a negative `added_lines`. -/
def streamC8neg : List Commit :=
  [ ⟨⟨"X"⟩, [⟨none, some "f", ModificationType.MODIFY, -3, 0⟩]⟩ ]

/-- A zero-line touch by A followed by ten lines from B on the same file. -/
def streamC10w : List Commit :=
  [ ⟨⟨"A"⟩, [⟨none, some "f", ModificationType.MODIFY, 0, 0⟩]⟩,
    ⟨⟨"B"⟩, [⟨none, some "f", ModificationType.MODIFY, 10, 0⟩]⟩ ]

/-! ### The claims -/

/-- Claim C1, counterexample.  On the stream [add `a.py` by X with 10
lines, rename `a.py` to `b.py`, modify `b.py` by Y with 5 lines] the
finalized output does NOT contain exactly one logical key `b.py`: the
contributions accumulated under `a.py` before the rename stay under
`a.py`, so the output has the two keys `a.py` and `b.py`. -/
theorem C1_counterexample :
    (count (metrics streamC1)).map Prod.fst = [some "a.py", some "b.py"] ∧
    (count (metrics streamC1)).map Prod.fst ≠ [some "b.py"] := by
  constructor
  · decide
  · decide

/-- Claim C1, amended.  On the stream [add `a.py` by X with 10 lines,
rename `a.py` to `b.py` by R, modify `b.py` by Y with 5 lines] the rename
aliases the old path for subsequent records only: the finalized output
keeps `a.py` with X's 10 lines (contributor count 1) and keys the rename
record and Y's 5 lines under `b.py` (contributor count 2, bus factor 1,
minor-contributor count 1 for R's zero-line entry). -/
theorem C1_amended :
    build streamC1 = [(some "a.py", [("X", 10)]), (some "b.py", [("R", 0), ("Y", 5)])] ∧
    metrics streamC1 =
      { contributors := [(some "a.py", 1), (some "b.py", 2)],
        minor_contributors := [(some "a.py", 0), (some "b.py", 1)],
        bus_factor := [(some "a.py", 1), (some "b.py", 1)] } := by
  constructor
  · decide
  · decide

/-- Claim C2, counterexample.  On the chained-rename stream a→b→c the
contributions made under `a` and `b` are NOT accumulated under `c`: the
finalized output has the three keys `a`, `b` and `c`, and `c` holds only
the contributions recorded under `c` itself. -/
theorem C2_counterexample :
    (count (metrics streamC2)).map Prod.fst = [some "a", some "b", some "c"] ∧
    (count (metrics streamC2)).map Prod.fst ≠ [some "c"] ∧
    alookup (build streamC2) (some "c") = some [("R2", 0), ("Z", 3)] := by
  refine ⟨?_, ?_, ?_⟩
  · decide
  · decide
  · decide

/-- Claim C2, amended.  Contributions are keyed by the path as resolved at
processing time: a later record naming an already-renamed path is routed
through the alias recorded for it (a single step, as stored, not re-chased
through later renames), while contributions accumulated before a rename
stay under their original key.  On the stream a→b→c with a final record
naming `a`, that record lands under `b` (the alias recorded when `a` was
renamed), and the output keeps the three keys `a`, `b`, `c`. -/
theorem C2_amended :
    build streamC2 =
      [ (some "a", [("X", 10)]),
        (some "b", [("R1", 0), ("Y", 5), ("W", 7)]),
        (some "c", [("R2", 0), ("Z", 3)]) ] ∧
    metrics streamC2 =
      { contributors := [(some "a", 1), (some "b", 3), (some "c", 2)],
        minor_contributors := [(some "a", 0), (some "b", 1), (some "c", 1)],
        bus_factor := [(some "a", 1), (some "b", 1), (some "c", 1)] } := by
  constructor
  · decide
  · decide

/-- Claim C7, counterexample.  A record whose `new_path` is absent is not
silently excluded from the final output: it is keyed by the absent path,
and when its total is nonzero that key appears in all three result maps. -/
theorem C7_counterexample :
    alookup (count (metrics streamC7)) none = some 1 ∧
    alookup (count_minor (metrics streamC7)) none = some 0 ∧
    alookup (measure_bus_factor (metrics streamC7)) none = some 1 := by
  refine ⟨?_, ?_, ?_⟩
  · decide
  · decide
  · decide

/-- Claim C7, amended.  Records with absent `new_path` are accumulated
under the absent-path key; whenever that key's total is nonzero it appears
in all three output maps (with its contributor count, minor-contributor
count and bus factor), and no error is raised while processing such
records. -/
theorem C7_amended (cs : List Commit) (t : Dict String Int)
    (ht : alookup (build cs) none = some t) (hnz : totalOf t ≠ 0) :
    alookup (count (metrics cs)) none = some t.length ∧
    alookup (count_minor (metrics cs)) none = some (minorCountOf t) ∧
    alookup (measure_bus_factor (metrics cs)) none = some (busFactorOf t) ∧
    metricsE cs = some (metrics cs) := by
  refine ⟨?_, ?_, ?_, metricsE_eq cs⟩
  · simp only [count, metrics, finalizeTable]
    exact alookup_filter_map_kept (build cs) _ ht hnz
  · simp only [count_minor, metrics, finalizeTable]
    exact alookup_filter_map_kept (build cs) _ ht hnz
  · simp only [measure_bus_factor, metrics, finalizeTable]
    exact alookup_filter_map_kept (build cs) _ ht hnz

/-- Claim C7, witness for the amended claim at the pure-deletion stream. -/
theorem C7_amended_witness :
    (alookup (build streamC7) none = some [("X", 5)] ∧ totalOf [("X", 5)] ≠ 0) ∧
    (alookup (count (metrics streamC7)) none = some ([("X", (5:Int))].length) ∧
     alookup (count_minor (metrics streamC7)) none = some (minorCountOf [("X", 5)]) ∧
     alookup (measure_bus_factor (metrics streamC7)) none = some (busFactorOf [("X", 5)]) ∧
     metricsE streamC7 = some (metrics streamC7)) :=
  ⟨⟨by decide, by decide⟩, C7_amended streamC7 [("X", 5)] (by decide) (by decide)⟩

/-- Claim C8.  The accumulation and finalization pass is total: for every
finite commit stream, the checked-division model returns the same output
as the plain pass without failing, and a malformed stream with a negative
line count flows through arithmetically (here producing the nonsensical
bus factor 2 for a file with a single contributor). -/
theorem C8_noFailure (cs : List Commit) :
    metricsE cs = some (metrics cs) ∧
    metrics streamC8neg =
      { contributors := [(some "f", 1)],
        minor_contributors := [(some "f", 0)],
        bus_factor := [(some "f", 2)] } := by
  refine ⟨metricsE_eq cs, ?_⟩
  decide

/-- Claim C9.  The three output maps carry exactly the same keys, in the
same order: every file path present in one is present in all three. -/
theorem C9_sameKeys (cs : List Commit) :
    (count (metrics cs)).map Prod.fst = (count_minor (metrics cs)).map Prod.fst ∧
    (count (metrics cs)).map Prod.fst = (measure_bus_factor (metrics cs)).map Prod.fst := by
  constructor <;>
    simp [count, count_minor, measure_bus_factor, metrics, finalizeTable, List.map_map,
      Function.comp]

/-- The descending-sorted per-author value sequence of a file table,
Python `sorted(contributions.values(), reverse=True)`. -/
def sortedValues (contribs : Dict String Int) : List Int :=
  List.insertionSort (fun a b => a ≥ b) (contribs.map Prod.snd)

/-- Claim C3.  For every finalized file, the reported bus factor equals
1 plus the number of prefix sums of the descending-sorted value sequence
strictly below half the total, and it is the least number of top
contributors whose combined contribution reaches half the total: taking
`busFactorOf t` top values reaches `total / 2`, while every smaller
prefix stays strictly below it. -/
theorem C3_busFactor (cs : List Commit) (hcs : NonnegStream cs)
    (p : Option String) (t : Dict String Int)
    (ht : alookup (build cs) p = some t) (hpos : 0 < totalOf t) :
    alookup (measure_bus_factor (metrics cs)) p = some (busFactorOf t) ∧
    busFactorOf t = ((prefixSums (sortedValues t)).filter (fun (v : Int) =>
      decide ((v : ℚ) < (totalOf t : ℚ) / 2))).length + 1 ∧
    (totalOf t : ℚ) / 2 ≤ (((sortedValues t).take (busFactorOf t)).sum : ℚ) ∧
    ∀ m < busFactorOf t, (((sortedValues t).take m).sum : ℚ) < (totalOf t : ℚ) / 2 := by
  have hnn : ∀ av ∈ t, 0 ≤ av.2 := valuesNonneg_build cs hcs p t ht
  have hnz : totalOf t ≠ 0 := by omega
  have hspec := busFactorOf_spec t (sortedValues t) rfl hnn hpos
  refine ⟨?_, rfl, hspec.2.1, hspec.2.2⟩
  simp only [measure_bus_factor, metrics, finalizeTable]
  exact alookup_filter_map_kept (build cs) _ ht hnz

/-- Claim C3, witness at the two-author stream (X 10 lines, Y 5 lines). -/
theorem C3_busFactor_witness :
    (NonnegStream streamC3w ∧
     alookup (build streamC3w) (some "f") = some [("X", 10), ("Y", 5)] ∧
     0 < totalOf [("X", 10), ("Y", 5)]) ∧
    (alookup (measure_bus_factor (metrics streamC3w)) (some "f") =
       some (busFactorOf [("X", 10), ("Y", 5)]) ∧
     busFactorOf [("X", 10), ("Y", 5)] =
       ((prefixSums (sortedValues [("X", 10), ("Y", 5)])).filter (fun (v : Int) =>
         decide ((v : ℚ) < (totalOf [("X", 10), ("Y", 5)] : ℚ) / 2))).length + 1 ∧
     (totalOf [("X", 10), ("Y", 5)] : ℚ) / 2 ≤
       (((sortedValues [("X", 10), ("Y", 5)]).take (busFactorOf [("X", 10), ("Y", 5)])).sum : ℚ) ∧
     ∀ m < busFactorOf [("X", 10), ("Y", 5)],
       (((sortedValues [("X", 10), ("Y", 5)]).take m).sum : ℚ) <
         (totalOf [("X", 10), ("Y", 5)] : ℚ) / 2) :=
  ⟨⟨by decide, by decide, by decide⟩,
   C3_busFactor streamC3w (by decide) (some "f") [("X", 10), ("Y", 5)] (by decide) (by decide)⟩

/-- Claim C4.  For every finalized file, the minor-contributor count is
the number of authors whose value satisfies `v / total < 5 / 100` under
strict inequality and exact (real) division; in particular twenty authors
each holding exactly one twentieth of the total produce a minor count of
0, an author at exactly five percent not being minor. -/
theorem C4_minorCount (cs : List Commit) (p : Option String) (t : Dict String Int)
    (ht : alookup (build cs) p = some t) (hnz : totalOf t ≠ 0) :
    alookup (count_minor (metrics cs)) p = some ((t.filter (fun (av : String × Int) =>
      decide ((av.2 : ℚ) / (totalOf t : ℚ) < (5 : ℚ) / 100))).length) ∧
    alookup (count_minor (metrics stream20)) (some "f") = some 0 ∧
    alookup (count (metrics stream20)) (some "f") = some 20 := by
  refine ⟨?_, by decide, by decide⟩
  simp only [count_minor, metrics, finalizeTable]
  exact alookup_filter_map_kept (build cs) _ ht hnz

/-- Claim C4, witness at the twenty-author stream. -/
theorem C4_minorCount_witness :
    (alookup (build stream20) (some "f") = some table20 ∧ totalOf table20 ≠ 0) ∧
    (alookup (count_minor (metrics stream20)) (some "f") =
       some ((table20.filter (fun (av : String × Int) =>
         decide ((av.2 : ℚ) / (totalOf table20 : ℚ) < (5 : ℚ) / 100))).length) ∧
     alookup (count_minor (metrics stream20)) (some "f") = some 0 ∧
     alookup (count (metrics stream20)) (some "f") = some 20) :=
  ⟨⟨by decide, by decide⟩,
   C4_minorCount stream20 (some "f") table20 (by decide) (by decide)⟩

/-- Claim C5.  For every finalized file with positive total, the reported
contributor count is at least 1, the bus factor is at least 1 and at most
the contributor count, and the minor-contributor count is at most the
contributor count. -/
theorem C5_bounds (cs : List Commit) (hcs : NonnegStream cs)
    (p : Option String) (t : Dict String Int)
    (ht : alookup (build cs) p = some t) (hpos : 0 < totalOf t) :
    alookup (count (metrics cs)) p = some t.length ∧
    alookup (count_minor (metrics cs)) p = some (minorCountOf t) ∧
    alookup (measure_bus_factor (metrics cs)) p = some (busFactorOf t) ∧
    1 ≤ t.length ∧ 1 ≤ busFactorOf t ∧ busFactorOf t ≤ t.length ∧
    minorCountOf t ≤ t.length := by
  have hnn := valuesNonneg_build cs hcs p t ht
  have hnz : totalOf t ≠ 0 := by omega
  have hspec := busFactorOf_spec t (sortedValues t) rfl hnn hpos
  refine ⟨?_, ?_, ?_, length_pos_of_totalOf_ne_zero hnz, ?_, hspec.1,
    minorCountOf_le_length t⟩
  · simp only [count, metrics, finalizeTable]
    exact alookup_filter_map_kept (build cs) _ ht hnz
  · simp only [count_minor, metrics, finalizeTable]
    exact alookup_filter_map_kept (build cs) _ ht hnz
  · simp only [measure_bus_factor, metrics, finalizeTable]
    exact alookup_filter_map_kept (build cs) _ ht hnz
  · simp only [busFactorOf]
    omega

/-- Claim C5, witness at the single-author stream (X, 10 lines). -/
theorem C5_bounds_witness :
    (NonnegStream streamC5w ∧
     alookup (build streamC5w) (some "f") = some [("X", 10)] ∧
     0 < totalOf [("X", 10)]) ∧
    (alookup (count (metrics streamC5w)) (some "f") = some ([("X", (10:Int))].length) ∧
     alookup (count_minor (metrics streamC5w)) (some "f") = some (minorCountOf [("X", 10)]) ∧
     alookup (measure_bus_factor (metrics streamC5w)) (some "f") =
       some (busFactorOf [("X", 10)]) ∧
     1 ≤ [("X", (10:Int))].length ∧ 1 ≤ busFactorOf [("X", 10)] ∧
     busFactorOf [("X", 10)] ≤ [("X", (10:Int))].length ∧
     minorCountOf [("X", 10)] ≤ [("X", (10:Int))].length) :=
  ⟨⟨by decide, by decide, by decide⟩,
   C5_bounds streamC5w (by decide) (some "f") [("X", 10)] (by decide) (by decide)⟩

/-- Claim C6.  A file whose accumulated contributions sum to exactly zero
is absent from all three output maps. -/
theorem C6_zeroTotalDropped (cs : List Commit) (p : Option String) (t : Dict String Int)
    (ht : alookup (build cs) p = some t) (hz : totalOf t = 0) :
    alookup (count (metrics cs)) p = none ∧
    alookup (count_minor (metrics cs)) p = none ∧
    alookup (measure_bus_factor (metrics cs)) p = none := by
  have hnd := nodupKeys_build cs
  refine ⟨?_, ?_, ?_⟩
  · simp only [count, metrics, finalizeTable]
    exact alookup_filter_map_dropped (build cs) _ hnd ht hz
  · simp only [count_minor, metrics, finalizeTable]
    exact alookup_filter_map_dropped (build cs) _ hnd ht hz
  · simp only [measure_bus_factor, metrics, finalizeTable]
    exact alookup_filter_map_dropped (build cs) _ hnd ht hz

/-- Claim C6, witness: a file touched only by a record with zero added
and zero deleted lines appears in none of the three maps. -/
theorem C6_zeroTotalDropped_witness :
    (alookup (build streamC6w) (some "f") = some [("A", 0)] ∧ totalOf [("A", 0)] = 0) ∧
    (alookup (count (metrics streamC6w)) (some "f") = none ∧
     alookup (count_minor (metrics streamC6w)) (some "f") = none ∧
     alookup (measure_bus_factor (metrics streamC6w)) (some "f") = none) :=
  ⟨⟨by decide, by decide⟩,
   C6_zeroTotalDropped streamC6w (some "f") [("A", 0)] (by decide) (by decide)⟩

/-- Claim C10.  An author whose accumulated value is exactly zero, on a
file with positive total, is one of the entries counted by the
contributor count and satisfies the minor-contributor predicate, hence is
counted by the minor-contributor count as well. -/
theorem C10_zeroValuedAuthor (cs : List Commit) (p : Option String) (t : Dict String Int)
    (a : String) (ht : alookup (build cs) p = some t) (ha : alookup t a = some 0)
    (hpos : 0 < totalOf t) :
    (a, (0 : Int)) ∈ t ∧
    alookup (count (metrics cs)) p = some t.length ∧
    alookup (count_minor (metrics cs)) p = some ((t.filter (fun (av : String × Int) =>
      decide ((av.2 : ℚ) / (totalOf t : ℚ) < (5 : ℚ) / 100))).length) ∧
    (a, (0 : Int)) ∈ t.filter (fun (av : String × Int) =>
      decide ((av.2 : ℚ) / (totalOf t : ℚ) < (5 : ℚ) / 100)) := by
  have hmem := alookup_mem ha
  have hnz : totalOf t ≠ 0 := by omega
  refine ⟨hmem, ?_, ?_, ?_⟩
  · simp only [count, metrics, finalizeTable]
    exact alookup_filter_map_kept (build cs) _ ht hnz
  · simp only [count_minor, metrics, finalizeTable]
    exact alookup_filter_map_kept (build cs) _ ht hnz
  · apply List.mem_filter.2
    refine ⟨hmem, ?_⟩
    simp only [decide_eq_true_eq, Int.cast_zero, zero_div]
    norm_num

/-- Claim C10, witness: A touches `f` with zero lines, B adds ten. -/
theorem C10_zeroValuedAuthor_witness :
    (alookup (build streamC10w) (some "f") = some [("A", 0), ("B", 10)] ∧
     alookup [("A", (0:Int)), ("B", 10)] "A" = some 0 ∧
     0 < totalOf [("A", 0), ("B", 10)]) ∧
    (("A", (0 : Int)) ∈ [("A", (0:Int)), ("B", 10)] ∧
     alookup (count (metrics streamC10w)) (some "f") = some ([("A", (0:Int)), ("B", 10)].length) ∧
     alookup (count_minor (metrics streamC10w)) (some "f") =
       some (([("A", (0:Int)), ("B", 10)].filter (fun (av : String × Int) =>
         decide ((av.2 : ℚ) / (totalOf [("A", 0), ("B", 10)] : ℚ) < (5 : ℚ) / 100))).length) ∧
     ("A", (0 : Int)) ∈ [("A", (0:Int)), ("B", 10)].filter (fun (av : String × Int) =>
       decide ((av.2 : ℚ) / (totalOf [("A", 0), ("B", 10)] : ℚ) < (5 : ℚ) / 100))) :=
  ⟨⟨by decide, by decide, by decide⟩,
   C10_zeroValuedAuthor streamC10w (some "f") [("A", 0), ("B", 10)] "A"
     (by decide) (by decide) (by decide)⟩

end ContributorsCount
